import Mathlib

/-!
Verification of the HyperLogLog++ sketch core of KrakenHLL
(`src/hyperloglogplus.h`).

The repository ships the class declaration in `hyperloglogplus.h`:
precision `p`, register count `m = 2^p`, dense registers
`vector<uint8_t> M`, a sparse representation flag, a
`SparseListType = unordered_set<uint32_t>` sparse list, an injected
64-bit `bit_mixer`, and the sparse constants `pPrime = 25`,
`mPrime = 2^25`.  The method bodies (`add`, `operator+=`,
`switchToNormalRepresentation`, `addToRegisters`, the estimators) live in
a translation unit that is not part of the source tree, so every
operation below is modelled from the specification's own description of
those methods, on top of the data model fixed by the header.

Machine integers are modelled as `Nat` with explicit reduction modulo
`2^64` where the 64-bit width matters.  The `unordered_set<uint32_t>` of
encoded sparse entries is modelled as an association list from sparse
bucket index to rank, kept sorted by index with at most one entry per
index (the spec requires max-rank-per-index semantics; a sorted list is
the canonical form of that set).
-/

namespace HLLPM

/-- Sparse precision, fixed by the header: `pPrime = 25`. -/
def pPrime : ℕ := 25

/-- Sparse register count, fixed by the header: `mPrime = 2^pPrime`. -/
def mPrime : ℕ := 2 ^ pPrime

/-- Number of bits of `n` (`⌈log₂ (n+1)⌉`), computed with structural
fuel recursion so that it reduces in the kernel; the fuel 64 suffices
for every value that fits a 64-bit hash. -/
def bitlenAux : ℕ → ℕ → ℕ
  | 0, _ => 0
  | fuel + 1, n => if n = 0 then 0 else bitlenAux fuel (n / 2) + 1

/-- Bit length of a value occurring in a 64-bit hash computation. -/
def bitlen (n : ℕ) : ℕ := bitlenAux 64 n

/-- Modelled from the spec: count of leading zero bits of the value `v`
viewed in a field of `w` bits (missing: body of the rank computation in
`add`). -/
def clz (w v : ℕ) : ℕ := w - bitlen v

/-- Modelled from the spec: rank of the remaining `w` hash bits `v`,
`1 +` the count of leading zero bits, saturated at `63`, the largest
value a 6-bit rank field stores (missing: body of the rank computation
in `add`). -/
def rankOfBits (w v : ℕ) : ℕ := min 63 (clz w v + 1)

/-- Dense bucket index of a 64-bit hash at precision `p`: the top `p`
bits. -/
def denseIndex (p h : ℕ) : ℕ := h / 2 ^ (64 - p)

/-- Dense rank of a 64-bit hash at precision `p`: rank of the remaining
`64 - p` bits. -/
def denseRank (p h : ℕ) : ℕ := rankOfBits (64 - p) (h % 2 ^ (64 - p))

/-- Sparse bucket index of a 64-bit hash: the top `pPrime` bits. -/
def sparseIndex (h : ℕ) : ℕ := h / 2 ^ (64 - pPrime)

/-- Sparse rank of a 64-bit hash: rank of the remaining `64 - pPrime`
bits. -/
def sparseRank (h : ℕ) : ℕ := rankOfBits (64 - pPrime) (h % 2 ^ (64 - pPrime))

/-- The sparse accumulator: an association list `sparse index ↦ rank`,
sorted strictly by index, one entry per index.  It models the
`unordered_set<uint32_t>` of encoded `(index, rank)` entries of the
header with max-rank-per-index semantics. -/
abbrev SparseListType := List (ℕ × ℕ)

/-- Modelled from the spec: insert a `(sparse index, rank)` observation
into the sparse accumulator, keeping the maximum rank for an index that
is already present (missing: body of the sparse branch of `add`). -/
def sparseInsert : SparseListType → ℕ → ℕ → SparseListType
  | [], i, r => [(i, r)]
  | (j, s) :: rest, i, r =>
    if i < j then (i, r) :: (j, s) :: rest
    else if i = j then (j, max s r) :: rest
    else (j, s) :: sparseInsert rest i r

/-- The sketch state: precision, dense registers `M`, representation
flag and sparse list, as laid out in the header. -/
structure HyperLogLogPlusMinus where
  p : ℕ
  M : List ℕ
  sparse : Bool
  sparseList : SparseListType
  deriving DecidableEq, Repr

/-- Error signals of the spec's error-handling design. -/
inductive HLLError where
  | InvalidPrecision
  | PrecisionMismatch
  deriving DecidableEq, Repr

/-- Modelled from the spec: construction with a precision outside
`[4, 25]` fails with `InvalidPrecision`; otherwise the sketch starts
empty, sparse or dense as requested (missing: body of the
`HyperLogLogPlusMinus` constructor). -/
def construct (precision : ℕ) (startSparse : Bool) :
    Except HLLError HyperLogLogPlusMinus :=
  if 4 ≤ precision ∧ precision ≤ 25 then
    Except.ok
      { p := precision
        M := if startSparse then [] else List.replicate (2 ^ precision) 0
        sparse := startSparse
        sparseList := [] }
  else Except.error HLLError.InvalidPrecision

/-- Fold a `(bucket index, rank)` pair into the dense registers:
`M[i] = max(M[i], r)`. -/
def foldReg (M : List ℕ) (i r : ℕ) : List ℕ := M.set i (max (M.getD i 0) r)

/-- Modelled from the spec: conversion of one encoded sparse entry to a
dense `(index, rank)` pair during promotion: the dense index drops the
low `pPrime - p` index bits, and the rank is recomputed from the dropped
bits when they are nonzero, or extended by the dropped zero run when
they are all zero (missing: body of `addToRegisters`). -/
def sparseToDensePair (p : ℕ) (e : ℕ × ℕ) : ℕ × ℕ :=
  (e.1 / 2 ^ (pPrime - p),
    if e.1 % 2 ^ (pPrime - p) = 0 then (pPrime - p) + e.2
    else rankOfBits (pPrime - p) (e.1 % 2 ^ (pPrime - p)))

/-- Modelled from the spec: fold every sparse entry, converted to dense,
into a register array (missing: body of `addToRegisters`). -/
def addToRegisters (p : ℕ) (M : List ℕ) (sl : SparseListType) : List ℕ :=
  sl.foldl (fun A e => foldReg A (sparseToDensePair p e).1 (sparseToDensePair p e).2) M

/-- Modelled from the spec: sparse → dense promotion: populate the dense
registers from the sparse list, flip the representation to dense, clear
the sparse list (missing: body of `switchToNormalRepresentation`). -/
def switchToNormalRepresentation (s : HyperLogLogPlusMinus) : HyperLogLogPlusMinus :=
  { p := s.p
    M := addToRegisters s.p (List.replicate (2 ^ s.p) 0) s.sparseList
    sparse := false
    sparseList := [] }

/-- Modelled from the spec: insert an already-mixed 64-bit hash.  In
sparse mode the `(sparse index, sparse rank)` observation goes into the
sparse list and the sketch is promoted when the sparse storage cost
(4 bytes per encoded entry) exceeds the dense cost (`2^p` one-byte
registers); in dense mode the `(dense index, dense rank)` pair is folded
into the registers (missing: body of `add(uint64_t)`). -/
def insertHash (s : HyperLogLogPlusMinus) (h : ℕ) : HyperLogLogPlusMinus :=
  if s.sparse then
    let sl := sparseInsert s.sparseList (sparseIndex h) (sparseRank h)
    let s' : HyperLogLogPlusMinus := { s with sparseList := sl }
    if 2 ^ s.p < 4 * sl.length then switchToNormalRepresentation s' else s'
  else
    { s with M := foldReg s.M (denseIndex s.p h) (denseRank s.p h) }

/-- Modelled from the spec: `add(uint64_t item)` mixes the item through
the injected 64-bit mixer and inserts the resulting hash (missing: body
of `add(uint64_t)`). -/
def add (mixer : ℕ → ℕ) (s : HyperLogLogPlusMinus) (item : ℕ) : HyperLogLogPlusMinus :=
  insertHash s (mixer item % 2 ^ 64)

/-- Modelled from the spec: merge of two same-precision sketch states.
Sparse + sparse takes the union of the sparse entries at max rank per
index followed by a single promotion check; any other combination
converts the sparse side and takes the pointwise maximum of the register
arrays (missing: body of `add(other)` / `operator+=`). -/
def mergeStates (s other : HyperLogLogPlusMinus) : HyperLogLogPlusMinus :=
  if s.sparse && other.sparse then
    let sl := other.sparseList.foldl (fun a e => sparseInsert a e.1 e.2) s.sparseList
    let s' : HyperLogLogPlusMinus := { s with sparseList := sl }
    if 2 ^ s.p < 4 * sl.length then switchToNormalRepresentation s' else s'
  else
    let a := if s.sparse then switchToNormalRepresentation s else s
    let b := if other.sparse then switchToNormalRepresentation other else other
    { a with M := List.zipWith max a.M b.M }

/-- Modelled from the spec: `operator+=` rejects a precision mismatch
with `PrecisionMismatch` and otherwise merges (missing: body of
`operator+=`). -/
def merge (s other : HyperLogLogPlusMinus) : Except HLLError HyperLogLogPlusMinus :=
  if s.p = other.p then Except.ok (mergeStates s other)
  else Except.error HLLError.PrecisionMismatch

/-- Modelled from the spec: the imperative effect of `operator+=` on the
receiver: the error signal together with the receiver's state afterwards;
on a precision mismatch the merge is rejected and the receiver keeps its
state (missing: body of `operator+=`). -/
def mergeRun (s other : HyperLogLogPlusMinus) :
    Except HLLError Unit × HyperLogLogPlusMinus :=
  if s.p = other.p then (Except.ok (), mergeStates s other)
  else (Except.error HLLError.PrecisionMismatch, s)

/-- Well-formed sketch states: the states reachable through the public
interface.  Sparse mode holds no register array and a sorted,
duplicate-free sparse list; dense mode holds `2^p` registers and an
empty sparse list. -/
def WF (s : HyperLogLogPlusMinus) : Prop :=
  if s.sparse then
    s.M = [] ∧ s.sparseList.Pairwise (fun a b => a.1 < b.1)
  else
    s.M.length = 2 ^ s.p ∧ s.sparseList = []

instance (s : HyperLogLogPlusMinus) : Decidable (WF s) := by
  unfold WF; infer_instance

/-! ### Bit-length facts -/

theorem size_eq_size_div2 (n : ℕ) (hn : n ≠ 0) :
    Nat.size n = Nat.size (n / 2) + 1 := by
  rcases Nat.eq_zero_or_pos (n / 2) with h2 | h2
  · have h1 : n = 1 := by omega
    subst h1
    simp [Nat.size_one]
  · have hub : n / 2 < 2 ^ Nat.size (n / 2) := Nat.lt_size_self (n / 2)
    have hlb : 2 ^ (Nat.size (n / 2) - 1) ≤ n / 2 :=
      Nat.lt_size.mp (by have := Nat.size_pos.mpr h2; omega)
    have hspos : 0 < Nat.size (n / 2) := Nat.size_pos.mpr h2
    have hle : Nat.size n ≤ Nat.size (n / 2) + 1 := by
      apply Nat.size_le.mpr
      have : 2 ^ (Nat.size (n / 2) + 1) = 2 * 2 ^ Nat.size (n / 2) := by ring
      omega
    have hge : Nat.size (n / 2) + 1 ≤ Nat.size n := by
      have : Nat.size (n / 2) - 1 + 1 = Nat.size (n / 2) := by omega
      have h2n : 2 ^ (Nat.size (n / 2) - 1 + 1) ≤ n := by
        rw [pow_succ]
        omega
      have := Nat.lt_size.mpr h2n
      omega
    omega

theorem bitlenAux_eq_size (fuel : ℕ) :
    ∀ n : ℕ, n < 2 ^ fuel → bitlenAux fuel n = Nat.size n := by
  induction fuel with
  | zero =>
    intro n hn
    interval_cases n
    simp [bitlenAux, Nat.size_zero]
  | succ f ih =>
    intro n hn
    by_cases h0 : n = 0
    · subst h0; simp [bitlenAux, Nat.size_zero]
    · have hdiv : n / 2 < 2 ^ f := by
        have : 2 ^ (f + 1) = 2 * 2 ^ f := by ring
        omega
      simp only [bitlenAux, h0, if_false]
      rw [ih (n / 2) hdiv, size_eq_size_div2 n h0]

theorem bitlen_eq_size (n : ℕ) (hn : n < 2 ^ 64) : bitlen n = Nat.size n :=
  bitlenAux_eq_size 64 n hn

theorem bitlen_le (n w : ℕ) (hw : w ≤ 64) (hn : n < 2 ^ w) : bitlen n ≤ w := by
  rw [bitlen_eq_size n (lt_of_lt_of_le hn (Nat.pow_le_pow_right (by norm_num) hw))]
  exact Nat.size_le.mpr hn

theorem size_mul_pow_add (a k b : ℕ) (ha : 0 < a) (hb : b < 2 ^ k) :
    Nat.size (a * 2 ^ k + b) = Nat.size a + k := by
  have hub : a < 2 ^ Nat.size a := Nat.lt_size_self a
  have hsa : 0 < Nat.size a := Nat.size_pos.mpr ha
  have hlb : 2 ^ (Nat.size a - 1) ≤ a :=
    Nat.lt_size.mp (by omega)
  have hle : Nat.size (a * 2 ^ k + b) ≤ Nat.size a + k := by
    apply Nat.size_le.mpr
    have h1 : a * 2 ^ k + b < (a + 1) * 2 ^ k := by nlinarith
    have h2 : (a + 1) * 2 ^ k ≤ 2 ^ Nat.size a * 2 ^ k :=
      Nat.mul_le_mul_right _ (by omega)
    calc a * 2 ^ k + b < (a + 1) * 2 ^ k := h1
      _ ≤ 2 ^ Nat.size a * 2 ^ k := h2
      _ = 2 ^ (Nat.size a + k) := (pow_add 2 _ _).symm
  have hge : Nat.size a + k ≤ Nat.size (a * 2 ^ k + b) := by
    have h1 : 2 ^ (Nat.size a - 1 + k) ≤ a * 2 ^ k + b := by
      rw [pow_add]
      have : 2 ^ (Nat.size a - 1) * 2 ^ k ≤ a * 2 ^ k :=
        Nat.mul_le_mul_right _ hlb
      omega
    have := Nat.lt_size.mpr h1
    omega
  omega

/-! ### The conversion of one sparse observation reproduces the dense
observation of the same hash -/

theorem sparseToDensePair_hash (p h : ℕ) (hp4 : 4 ≤ p) (hp25 : p ≤ 25) :
    sparseToDensePair p (sparseIndex h, sparseRank h) =
      (denseIndex p h, denseRank p h) := by
  have hsplit : 64 - p = 39 + (25 - p) := by omega
  have hlow : h % 2 ^ 39 < 2 ^ 39 := Nat.mod_lt _ (by positivity)
  have hdropped : h / 2 ^ 39 % 2 ^ (25 - p) < 2 ^ (25 - p) :=
    Nat.mod_lt _ (by positivity)
  have hbl_low : bitlen (h % 2 ^ 39) ≤ 39 := bitlen_le _ 39 (by norm_num) hlow
  have hbl_dropped : bitlen (h / 2 ^ 39 % 2 ^ (25 - p)) ≤ 25 - p :=
    bitlen_le _ (25 - p) (by omega) hdropped
  have hdecomp : h % 2 ^ (64 - p) =
      (h / 2 ^ 39 % 2 ^ (25 - p)) * 2 ^ 39 + h % 2 ^ 39 := by
    have e1 : h % 2 ^ (64 - p) / 2 ^ 39 = h / 2 ^ 39 % 2 ^ (25 - p) := by
      rw [hsplit, pow_add, Nat.mod_mul_right_div_self]
    have e2 : h % 2 ^ (64 - p) % 2 ^ 39 = h % 2 ^ 39 := by
      rw [hsplit, pow_add]
      exact Nat.mod_mod_of_dvd h ⟨2 ^ (25 - p), rfl⟩
    have e3 := Nat.div_add_mod (h % 2 ^ (64 - p)) (2 ^ 39)
    omega
  have h3925 : (64 : ℕ) - pPrime = 39 := rfl
  have hpp : pPrime - p = 25 - p := rfl
  simp only [sparseToDensePair, sparseIndex, sparseRank, h3925, hpp, Prod.mk.injEq]
  constructor
  · show h / 2 ^ 39 / 2 ^ (25 - p) = denseIndex p h
    rw [denseIndex, Nat.div_div_eq_div_mul, ← pow_add, ← hsplit]
  · show (if h / 2 ^ 39 % 2 ^ (25 - p) = 0 then
        25 - p + rankOfBits 39 (h % 2 ^ 39)
      else rankOfBits (25 - p) (h / 2 ^ 39 % 2 ^ (25 - p))) = denseRank p h
    by_cases hd : h / 2 ^ 39 % 2 ^ (25 - p) = 0
    · simp only [hd, if_true, denseRank, rankOfBits, clz]
      rw [hdecomp, hd]
      simp only [Nat.zero_mul, Nat.zero_add]
      rw [min_eq_right (by omega), min_eq_right (by omega)]
      omega
    · have hd64 : h / 2 ^ 39 % 2 ^ (25 - p) < 2 ^ 64 :=
        lt_of_lt_of_le hdropped (Nat.pow_le_pow_right (by norm_num) (by omega))
      have hrem64 : h % 2 ^ (64 - p) < 2 ^ 64 :=
        lt_of_lt_of_le (Nat.mod_lt _ (by positivity))
          (Nat.pow_le_pow_right (by norm_num) (by omega))
      have hbleq : bitlen (h % 2 ^ (64 - p)) =
          bitlen (h / 2 ^ 39 % 2 ^ (25 - p)) + 39 := by
        rw [bitlen_eq_size _ hrem64, bitlen_eq_size _ hd64, hdecomp]
        exact size_mul_pow_add _ 39 _ (Nat.pos_of_ne_zero hd) hlow
      simp only [hd, if_false, denseRank, rankOfBits, clz]
      rw [hbleq, min_eq_right (by omega), min_eq_right (by omega)]
      omega

/-! ### Register-fold algebra -/

theorem foldReg_length (M : List ℕ) (i r : ℕ) :
    (foldReg M i r).length = M.length := by
  simp [foldReg]

theorem getD_set_self (M : List ℕ) (i a : ℕ) (hi : i < M.length) :
    (M.set i a).getD i 0 = a := by
  rw [List.getD_eq_getElem?_getD, List.getElem?_set_self hi]
  rfl

theorem getD_set_ne (M : List ℕ) (i j a : ℕ) (hij : i ≠ j) :
    (M.set i a).getD j 0 = M.getD j 0 := by
  rw [List.getD_eq_getElem?_getD, List.getElem?_set_ne hij,
    ← List.getD_eq_getElem?_getD]

theorem foldReg_same (M : List ℕ) (i x y : ℕ) :
    foldReg (foldReg M i x) i y = foldReg M i (max x y) := by
  rcases Nat.lt_or_ge i M.length with hi | hi
  · simp only [foldReg]
    rw [getD_set_self M i _ hi, List.set_set, max_assoc]
  · simp only [foldReg, List.set_eq_of_length_le hi]

theorem foldReg_comm (M : List ℕ) (i r j t : ℕ) :
    foldReg (foldReg M i r) j t = foldReg (foldReg M j t) i r := by
  by_cases hij : i = j
  · subst hij
    rw [foldReg_same, foldReg_same, max_comm]
  · simp only [foldReg]
    rw [getD_set_ne M i j _ hij, getD_set_ne M j i _ (Ne.symm hij),
      List.set_comm _ _ _ hij]

theorem addToRegisters_cons (p : ℕ) (M : List ℕ) (e : ℕ × ℕ)
    (t : SparseListType) :
    addToRegisters p M (e :: t) =
      addToRegisters p (foldReg M (sparseToDensePair p e).1 (sparseToDensePair p e).2) t :=
  rfl

theorem addToRegisters_foldReg (p : ℕ) (sl : SparseListType) (M : List ℕ)
    (i r : ℕ) :
    addToRegisters p (foldReg M i r) sl = foldReg (addToRegisters p M sl) i r := by
  induction sl generalizing M with
  | nil => rfl
  | cons e t ih =>
    rw [addToRegisters_cons, addToRegisters_cons, foldReg_comm, ih]

theorem sparseToDensePair_fst_rank (p i r s : ℕ) :
    (sparseToDensePair p (i, r)).1 = (sparseToDensePair p (i, s)).1 := rfl

theorem sparseToDensePair_rank_max (p i r s : ℕ) :
    (sparseToDensePair p (i, max s r)).2 =
      max (sparseToDensePair p (i, s)).2 (sparseToDensePair p (i, r)).2 := by
  simp only [sparseToDensePair]
  by_cases hd : i % 2 ^ (pPrime - p) = 0
  · simp only [hd, if_true]
    omega
  · simp [hd]

/-! ### Sparse-insert algebra -/

theorem sparseInsert_length (l : SparseListType) (i r : ℕ) :
    l.length ≤ (sparseInsert l i r).length := by
  induction l with
  | nil => simp [sparseInsert]
  | cons e rest ih =>
    obtain ⟨j, s⟩ := e
    simp only [sparseInsert]
    split_ifs <;> simp only [List.length_cons] <;> omega

theorem sparseInsert_same (l : SparseListType) (i r t : ℕ) :
    sparseInsert (sparseInsert l i r) i t = sparseInsert l i (max r t) := by
  induction l with
  | nil => simp [sparseInsert]
  | cons e rest ih =>
    obtain ⟨j, s⟩ := e
    rcases lt_trichotomy i j with h | h | h
    · simp [sparseInsert, h, lt_irrefl]
    · subst h
      simp [sparseInsert, lt_irrefl, max_assoc]
    · simp only [sparseInsert, if_neg (by omega : ¬ i < j),
        if_neg (by omega : ¬ i = j)]
      rw [ih]

theorem sparseInsert_cons_lt {i j : ℕ} (h : i < j) (s r : ℕ)
    (rest : SparseListType) :
    sparseInsert ((j, s) :: rest) i r = (i, r) :: (j, s) :: rest := by
  simp only [sparseInsert, if_pos h]

theorem sparseInsert_cons_eq (i s r : ℕ) (rest : SparseListType) :
    sparseInsert ((i, s) :: rest) i r = (i, max s r) :: rest := by
  simp only [sparseInsert, if_neg (lt_irrefl i), eq_self_iff_true, if_true]

theorem sparseInsert_cons_gt {i j : ℕ} (h : j < i) (s r : ℕ)
    (rest : SparseListType) :
    sparseInsert ((j, s) :: rest) i r = (j, s) :: sparseInsert rest i r := by
  simp only [sparseInsert, if_neg (by omega : ¬ i < j), if_neg (by omega : ¬ i = j)]

theorem sparseInsert_comm_lt (l : SparseListType) {i j : ℕ} (hij : i < j)
    (r t : ℕ) :
    sparseInsert (sparseInsert l i r) j t = sparseInsert (sparseInsert l j t) i r := by
  induction l with
  | nil =>
    show sparseInsert [(i, r)] j t = sparseInsert [(j, t)] i r
    rw [sparseInsert_cons_gt hij, sparseInsert_cons_lt hij]
    rfl
  | cons e rest ih =>
    obtain ⟨k, u⟩ := e
    rcases lt_trichotomy i k with h1 | h1 | h1
    · rw [sparseInsert_cons_lt h1, sparseInsert_cons_gt hij]
      rcases lt_trichotomy j k with h2 | h2 | h2
      · rw [sparseInsert_cons_lt h2, sparseInsert_cons_lt hij]
      · subst h2
        rw [sparseInsert_cons_eq, sparseInsert_cons_lt h1]
      · rw [sparseInsert_cons_gt h2, sparseInsert_cons_lt h1]
    · subst h1
      rw [sparseInsert_cons_eq, sparseInsert_cons_gt hij,
        sparseInsert_cons_gt hij, sparseInsert_cons_eq]
    · have hkj : k < j := lt_trans h1 hij
      rw [sparseInsert_cons_gt h1, sparseInsert_cons_gt hkj,
        sparseInsert_cons_gt hkj, sparseInsert_cons_gt h1, ih]

theorem sparseInsert_comm (l : SparseListType) (i r j t : ℕ) :
    sparseInsert (sparseInsert l i r) j t = sparseInsert (sparseInsert l j t) i r := by
  rcases lt_trichotomy i j with h | h | h
  · exact sparseInsert_comm_lt l h r t
  · subst h
    rw [sparseInsert_same, sparseInsert_same, max_comm]
  · exact (sparseInsert_comm_lt l h t r).symm

theorem sparseInsert_mem (l : SparseListType) (i r : ℕ) :
    ∀ e ∈ sparseInsert l i r, e.1 = i ∨ e ∈ l := by
  induction l with
  | nil =>
    intro e he
    simp only [sparseInsert, List.mem_singleton] at he
    subst he
    exact Or.inl rfl
  | cons f rest ih =>
    obtain ⟨j, s⟩ := f
    intro e he
    simp only [sparseInsert] at he
    split_ifs at he with h1 h2
    · rcases List.mem_cons.mp he with h | h
      · subst h; exact Or.inl rfl
      · exact Or.inr h
    · rcases List.mem_cons.mp he with h | h
      · subst h; exact Or.inl h2.symm
      · exact Or.inr (List.mem_cons_of_mem _ h)
    · rcases List.mem_cons.mp he with h | h
      · subst h; exact Or.inr (List.mem_cons_self _ _)
      · rcases ih e h with h' | h'
        · exact Or.inl h'
        · exact Or.inr (List.mem_cons_of_mem _ h')

theorem sparseInsert_pairwise (l : SparseListType) (i r : ℕ)
    (hl : l.Pairwise (fun a b => a.1 < b.1)) :
    (sparseInsert l i r).Pairwise (fun a b => a.1 < b.1) := by
  induction l with
  | nil => simp [sparseInsert]
  | cons f rest ih =>
    obtain ⟨j, s⟩ := f
    rw [List.pairwise_cons] at hl
    obtain ⟨hhead, htail⟩ := hl
    simp only [sparseInsert]
    split_ifs with h1 h2
    · refine List.Pairwise.cons ?_ (List.Pairwise.cons hhead htail)
      intro e he
      rcases List.mem_cons.mp he with h | h
      · subst h; exact h1
      · exact lt_trans h1 (hhead e h)
    · exact List.Pairwise.cons hhead htail
    · refine List.Pairwise.cons ?_ (ih htail)
      intro e he
      rcases sparseInsert_mem rest i r e he with h | h
      · rw [h]; omega
      · exact hhead e h

/-! ### Converting an inserted sparse entry equals folding its dense
image -/

theorem addToRegisters_sparseInsert (p : ℕ) (sl : SparseListType)
    (M : List ℕ) (i r : ℕ) :
    addToRegisters p M (sparseInsert sl i r) =
      foldReg (addToRegisters p M sl)
        (sparseToDensePair p (i, r)).1 (sparseToDensePair p (i, r)).2 := by
  induction sl generalizing M with
  | nil => rfl
  | cons e t ih =>
    obtain ⟨j, s⟩ := e
    rcases lt_trichotomy i j with h1 | h1 | h1
    · rw [sparseInsert_cons_lt h1, addToRegisters_cons, addToRegisters_cons,
        addToRegisters_cons, addToRegisters_foldReg, addToRegisters_foldReg,
        addToRegisters_foldReg, foldReg_comm]
    · subst h1
      rw [sparseInsert_cons_eq, addToRegisters_cons, addToRegisters_cons,
        ← addToRegisters_foldReg]
      congr 1
      have hfst : (sparseToDensePair p (i, r)).1 = (sparseToDensePair p (i, s)).1 := rfl
      have hfst2 : (sparseToDensePair p (i, max s r)).1 = (sparseToDensePair p (i, s)).1 := rfl
      rw [hfst, foldReg_same, ← sparseToDensePair_rank_max, hfst2]
    · rw [sparseInsert_cons_gt h1, addToRegisters_cons, addToRegisters_cons,
        ih]

/-! ### Normal forms of `insertHash` -/

theorem convert_insert (p : ℕ) (hp4 : 4 ≤ p) (hp25 : p ≤ 25)
    (sl : SparseListType) (M : List ℕ) (h : ℕ) :
    addToRegisters p M (sparseInsert sl (sparseIndex h) (sparseRank h)) =
      foldReg (addToRegisters p M sl) (denseIndex p h) (denseRank p h) := by
  rw [addToRegisters_sparseInsert, sparseToDensePair_hash p h hp4 hp25]

theorem insertHash_p (s : HyperLogLogPlusMinus) (h : ℕ) :
    (insertHash s h).p = s.p := by
  obtain ⟨p, M, sp, sl0⟩ := s
  cases sp
  · rfl
  · simp only [insertHash]
    split_ifs <;> rfl

theorem insertHash_sparse_eq (s : HyperLogLogPlusMinus) (hs : s.sparse = true)
    (h : ℕ) :
    insertHash s h =
      if 2 ^ s.p <
          4 * (sparseInsert s.sparseList (sparseIndex h) (sparseRank h)).length then
        { p := s.p
          M := addToRegisters s.p (List.replicate (2 ^ s.p) 0)
            (sparseInsert s.sparseList (sparseIndex h) (sparseRank h))
          sparse := false
          sparseList := [] }
      else { s with sparseList := sparseInsert s.sparseList (sparseIndex h) (sparseRank h) } := by
  obtain ⟨p, M, sp, sl0⟩ := s
  cases hs
  by_cases hT : 2 ^ p < 4 * (sparseInsert sl0 (sparseIndex h) (sparseRank h)).length
  · simp only [insertHash, if_pos hT]
    rfl
  · simp only [insertHash, if_neg hT]
    rfl

theorem insertHash_dense_eq (s : HyperLogLogPlusMinus) (hs : s.sparse = false)
    (h : ℕ) :
    insertHash s h =
      { s with M := foldReg s.M (denseIndex s.p h) (denseRank s.p h) } := by
  obtain ⟨p, M, sp, sl0⟩ := s
  cases hs
  rfl

theorem insert_two_sparse (s : HyperLogLogPlusMinus) (hs : s.sparse = true)
    (hp4 : 4 ≤ s.p) (hp25 : s.p ≤ 25) (h1 h2 : ℕ) :
    insertHash (insertHash s h1) h2 =
      if 2 ^ s.p <
          4 * (sparseInsert (sparseInsert s.sparseList (sparseIndex h1) (sparseRank h1))
            (sparseIndex h2) (sparseRank h2)).length then
        { p := s.p
          M := addToRegisters s.p (List.replicate (2 ^ s.p) 0)
            (sparseInsert (sparseInsert s.sparseList (sparseIndex h1) (sparseRank h1))
              (sparseIndex h2) (sparseRank h2))
          sparse := false
          sparseList := [] }
      else { s with
        sparseList := sparseInsert (sparseInsert s.sparseList (sparseIndex h1) (sparseRank h1))
          (sparseIndex h2) (sparseRank h2) } := by
  rw [insertHash_sparse_eq s hs h1]
  by_cases hT1 : 2 ^ s.p <
      4 * (sparseInsert s.sparseList (sparseIndex h1) (sparseRank h1)).length
  · rw [if_pos hT1]
    have hT12 : 2 ^ s.p <
        4 * (sparseInsert (sparseInsert s.sparseList (sparseIndex h1) (sparseRank h1))
          (sparseIndex h2) (sparseRank h2)).length :=
      lt_of_lt_of_le hT1 (by
        have := sparseInsert_length
          (sparseInsert s.sparseList (sparseIndex h1) (sparseRank h1))
          (sparseIndex h2) (sparseRank h2)
        omega)
    rw [insertHash_dense_eq _ rfl h2, if_pos hT12]
    simp only
    rw [convert_insert s.p hp4 hp25, convert_insert s.p hp4 hp25,
      convert_insert s.p hp4 hp25]
  · rw [if_neg hT1]
    rw [insertHash_sparse_eq
      { s with sparseList := sparseInsert s.sparseList (sparseIndex h1) (sparseRank h1) }
      hs h2]

/-! ### Commutation and idempotence of insertion -/

theorem insertHash_comm (s : HyperLogLogPlusMinus) (hp4 : 4 ≤ s.p)
    (hp25 : s.p ≤ 25) (h1 h2 : ℕ) :
    insertHash (insertHash s h1) h2 = insertHash (insertHash s h2) h1 := by
  by_cases hs : s.sparse = true
  · rw [insert_two_sparse s hs hp4 hp25 h1 h2,
      insert_two_sparse s hs hp4 hp25 h2 h1, sparseInsert_comm]
  · obtain ⟨p, M0, sp, sl0⟩ := s
    have hsf : sp = false := by
      revert hs
      cases sp <;> simp
    subst hsf
    show HyperLogLogPlusMinus.mk p
        (foldReg (foldReg M0 (denseIndex p h1) (denseRank p h1))
          (denseIndex p h2) (denseRank p h2)) false sl0 =
      HyperLogLogPlusMinus.mk p
        (foldReg (foldReg M0 (denseIndex p h2) (denseRank p h2))
          (denseIndex p h1) (denseRank p h1)) false sl0
    rw [foldReg_comm]

theorem insertHash_idem (s : HyperLogLogPlusMinus) (hp4 : 4 ≤ s.p)
    (hp25 : s.p ≤ 25) (h : ℕ) :
    insertHash (insertHash s h) h = insertHash s h := by
  by_cases hs : s.sparse = true
  · rw [insert_two_sparse s hs hp4 hp25 h h, sparseInsert_same, max_self,
      insertHash_sparse_eq s hs h]
  · obtain ⟨p, M0, sp, sl0⟩ := s
    have hsf : sp = false := by
      revert hs
      cases sp <;> simp
    subst hsf
    show HyperLogLogPlusMinus.mk p
        (foldReg (foldReg M0 (denseIndex p h) (denseRank p h))
          (denseIndex p h) (denseRank p h)) false sl0 =
      HyperLogLogPlusMinus.mk p
        (foldReg M0 (denseIndex p h) (denseRank p h)) false sl0
    rw [foldReg_same, max_self]

/-! ### Folding over permutations -/

theorem foldl_comm_perm {α β : Type} (Inv : α → Prop) (f : α → β → α)
    (hpres : ∀ a b, Inv a → Inv (f a b))
    (hcomm : ∀ a b c, Inv a → f (f a b) c = f (f a c) b) :
    ∀ {l1 l2 : List β}, l1.Perm l2 → ∀ a, Inv a → l1.foldl f a = l2.foldl f a := by
  intro l1 l2 hperm
  induction hperm with
  | nil =>
    intro a _
    rfl
  | cons x hperm ih =>
    intro a ha
    simp only [List.foldl_cons]
    exact ih (f a x) (hpres a x ha)
  | swap x y l =>
    intro a ha
    simp only [List.foldl_cons]
    rw [hcomm a y x ha]
  | trans h12 h23 ih1 ih2 =>
    intro a ha
    rw [ih1 a ha, ih2 a ha]

theorem add_p (mixer : ℕ → ℕ) (s : HyperLogLogPlusMinus) (x : ℕ) :
    (add mixer s x).p = s.p :=
  insertHash_p s _

theorem construct_ok (precision : ℕ) (b : Bool) (s0 : HyperLogLogPlusMinus)
    (hc : construct precision b = Except.ok s0) :
    4 ≤ precision ∧ precision ≤ 25 ∧
      s0 = { p := precision
             M := if b then [] else List.replicate (2 ^ precision) 0
             sparse := b
             sparseList := [] } := by
  unfold construct at hc
  by_cases h : 4 ≤ precision ∧ precision ≤ 25
  · rw [if_pos h] at hc
    injection hc with hc
    exact ⟨h.1, h.2, hc.symm⟩
  · rw [if_neg h] at hc
    simp at hc

/-- C9: for every finite sequence of 64-bit items inserted one by one via
`add` into a freshly constructed sketch (in either starting
representation), the final sketch state — registers, sparse entries and
representation, including any sparse-to-dense promotion along the way —
is the same for every permutation of the sequence. -/
theorem insertion_order_irrelevant (precision : ℕ) (b : Bool)
    (mixer : ℕ → ℕ) (s0 : HyperLogLogPlusMinus)
    (hc : construct precision b = Except.ok s0)
    {items1 items2 : List ℕ} (hperm : items1.Perm items2) :
    items1.foldl (add mixer) s0 = items2.foldl (add mixer) s0 := by
  obtain ⟨hp4, hp25, hs0⟩ := construct_ok precision b s0 hc
  refine foldl_comm_perm (fun t => 4 ≤ t.p ∧ t.p ≤ 25) (add mixer)
    (fun a x ha => ?_) (fun a x y ha => ?_) hperm s0 ?_
  · show 4 ≤ (add mixer a x).p ∧ (add mixer a x).p ≤ 25
    rw [add_p]
    exact ha
  · exact insertHash_comm a ha.1 ha.2 _ _
  · rw [hs0]
    exact ⟨hp4, hp25⟩

/-- Witness for C9 at precision 4 with the identity mixer and the item
sequences `[1, 2]` and `[2, 1]`. -/
theorem insertion_order_irrelevant_witness :
    construct 4 true = Except.ok (HyperLogLogPlusMinus.mk 4 [] true [])
    ∧ [1, 2].Perm [2, 1]
    ∧ [1, 2].foldl (add id) (HyperLogLogPlusMinus.mk 4 [] true [])
      = [2, 1].foldl (add id) (HyperLogLogPlusMinus.mk 4 [] true []) :=
  ⟨rfl, by decide,
    insertion_order_irrelevant 4 true id _ rfl (by decide)⟩

/-- C6: inserting the same item `n ≥ 1` times via `add` yields exactly
the same sketch state — register array or sparse set, and
representation — as inserting it once. -/
theorem add_idempotent (mixer : ℕ → ℕ) (s : HyperLogLogPlusMinus)
    (hp4 : 4 ≤ s.p) (hp25 : s.p ≤ 25) (x n : ℕ) (hn : 1 ≤ n) :
    (fun t => add mixer t x)^[n] s = add mixer s x := by
  have key : ∀ m : ℕ,
      (fun t => add mixer t x)^[m] (add mixer s x) = add mixer s x := by
    intro m
    induction m with
    | zero => rfl
    | succ k ih =>
      rw [Function.iterate_succ_apply,
        show add mixer (add mixer s x) x = add mixer s x from
          insertHash_idem s hp4 hp25 _]
      exact ih
  obtain ⟨m, rfl⟩ : ∃ m, n = m + 1 := ⟨n - 1, by omega⟩
  rw [Function.iterate_succ_apply]
  exact key m

/-- Witness for C6: inserting item 5 three times at precision 4. -/
theorem add_idempotent_witness :
    4 ≤ (HyperLogLogPlusMinus.mk 4 [] true []).p
    ∧ (HyperLogLogPlusMinus.mk 4 [] true []).p ≤ 25
    ∧ 1 ≤ 3
    ∧ (fun t => add id t 5)^[3] (HyperLogLogPlusMinus.mk 4 [] true [])
      = add id (HyperLogLogPlusMinus.mk 4 [] true []) 5 :=
  ⟨by decide, by decide, by decide,
    add_idempotent id _ (by decide) (by decide) 5 3 (by decide)⟩

/-- C4: for every 64-bit mixed hash, the dense and sparse ranks equal
1 plus the count of leading zero bits of the remaining `64 - p`
(respectively `64 - pPrime`) bits, never exceed the 6-bit register
maximum 63, and when all remaining bits are zero they equal the bounded
values `64 - p + 1` (respectively `64 - pPrime + 1`). -/
theorem rank_bounded_wellDefined (p h : ℕ) (hp4 : 4 ≤ p) (hp25 : p ≤ 25)
    (_hh : h < 2 ^ 64) :
    denseRank p h = (64 - p) - bitlen (h % 2 ^ (64 - p)) + 1
    ∧ sparseRank h = (64 - pPrime) - bitlen (h % 2 ^ (64 - pPrime)) + 1
    ∧ denseRank p h ≤ 63
    ∧ sparseRank h ≤ 63
    ∧ (h % 2 ^ (64 - p) = 0 → denseRank p h = 64 - p + 1)
    ∧ (h % 2 ^ (64 - pPrime) = 0 → sparseRank h = 64 - pPrime + 1) := by
  have hmd : h % 2 ^ (64 - p) < 2 ^ (64 - p) := Nat.mod_lt _ (by positivity)
  have hms : h % 2 ^ (64 - pPrime) < 2 ^ (64 - pPrime) :=
    Nat.mod_lt _ (by positivity)
  have hbd : bitlen (h % 2 ^ (64 - p)) ≤ 64 - p :=
    bitlen_le _ (64 - p) (by omega) hmd
  have hbs : bitlen (h % 2 ^ (64 - pPrime)) ≤ 64 - pPrime :=
    bitlen_le _ (64 - pPrime) (by omega) hms
  have hpp : (64 : ℕ) - pPrime = 39 := rfl
  refine ⟨?_, ?_, ?_, ?_, ?_, ?_⟩
  · rw [denseRank, rankOfBits, clz, min_eq_right (by omega)]
  · rw [sparseRank, rankOfBits, clz, min_eq_right (by rw [hpp] at hbs ⊢; omega)]
  · exact min_le_left _ _
  · exact min_le_left _ _
  · intro h0
    rw [denseRank, h0, rankOfBits, clz]
    have : bitlen 0 = 0 := rfl
    rw [this, min_eq_right (by omega), Nat.sub_zero]
  · intro h0
    rw [sparseRank, h0, rankOfBits, clz]
    have : bitlen 0 = 0 := rfl
    rw [this, min_eq_right (by rw [hpp]; omega), Nat.sub_zero]

/-- Witness for C4 at precision 12 and hash 2^39. -/
theorem rank_bounded_wellDefined_witness :
    4 ≤ 12 ∧ 12 ≤ 25 ∧ 2 ^ 39 < 2 ^ 64
    ∧ (denseRank 12 (2 ^ 39) = (64 - 12) - bitlen (2 ^ 39 % 2 ^ (64 - 12)) + 1
      ∧ sparseRank (2 ^ 39) = (64 - pPrime) - bitlen (2 ^ 39 % 2 ^ (64 - pPrime)) + 1
      ∧ denseRank 12 (2 ^ 39) ≤ 63
      ∧ sparseRank (2 ^ 39) ≤ 63
      ∧ (2 ^ 39 % 2 ^ (64 - 12) = 0 → denseRank 12 (2 ^ 39) = 64 - 12 + 1)
      ∧ (2 ^ 39 % 2 ^ (64 - pPrime) = 0 → sparseRank (2 ^ 39) = 64 - pPrime + 1)) :=
  ⟨by decide, by decide, by norm_num,
    rank_bounded_wellDefined 12 (2 ^ 39) (by decide) (by decide) (by norm_num)⟩

/-- C8: construction succeeds exactly for precisions in `[4, 25]` and
fails with `InvalidPrecision` outside that range. -/
theorem construct_valid_range (precision : ℕ) (startSparse : Bool) :
    (4 ≤ precision ∧ precision ≤ 25 →
      construct precision startSparse =
        Except.ok { p := precision
                    M := if startSparse then []
                      else List.replicate (2 ^ precision) 0
                    sparse := startSparse
                    sparseList := [] })
    ∧ (precision < 4 ∨ 25 < precision →
      construct precision startSparse = Except.error HLLError.InvalidPrecision) := by
  constructor
  · intro h
    rw [construct, if_pos h]
  · intro h
    rw [construct, if_neg (by omega)]

/-- Witness for C8: precision 12 succeeds, precision 3 fails. -/
theorem construct_valid_range_witness :
    construct 12 true =
      Except.ok { p := 12
                  M := if true then [] else List.replicate (2 ^ 12) 0
                  sparse := true
                  sparseList := [] }
    ∧ construct 3 true = Except.error HLLError.InvalidPrecision :=
  ⟨(construct_valid_range 12 true).1 (by decide),
    (construct_valid_range 3 true).2 (by decide)⟩

/-- C3: merging two sketches of different precisions fails with
`PrecisionMismatch`, and on that failure the receiver keeps its state
(in either direction); the argument of `operator+=` is never written. -/
theorem merge_mismatch_rejected (s other : HyperLogLogPlusMinus)
    (hne : s.p ≠ other.p) :
    merge s other = Except.error HLLError.PrecisionMismatch
    ∧ mergeRun s other = (Except.error HLLError.PrecisionMismatch, s)
    ∧ mergeRun other s = (Except.error HLLError.PrecisionMismatch, other) := by
  refine ⟨?_, ?_, ?_⟩
  · rw [merge, if_neg hne]
  · rw [mergeRun, if_neg hne]
  · rw [mergeRun, if_neg (Ne.symm hne)]

/-- Witness for C3 with fresh sketches at precisions 4 and 5. -/
theorem merge_mismatch_rejected_witness :
    merge (HyperLogLogPlusMinus.mk 4 [] true [])
        (HyperLogLogPlusMinus.mk 5 [] true [])
      = Except.error HLLError.PrecisionMismatch
    ∧ mergeRun (HyperLogLogPlusMinus.mk 4 [] true [])
        (HyperLogLogPlusMinus.mk 5 [] true [])
      = (Except.error HLLError.PrecisionMismatch,
          HyperLogLogPlusMinus.mk 4 [] true [])
    ∧ mergeRun (HyperLogLogPlusMinus.mk 5 [] true [])
        (HyperLogLogPlusMinus.mk 4 [] true [])
      = (Except.error HLLError.PrecisionMismatch,
          HyperLogLogPlusMinus.mk 5 [] true []) :=
  merge_mismatch_rejected _ _ (by decide)

/-! ### Refinement: a sparse-started run is simulated by the dense
register fold -/

/-- The dense register array a sketch state denotes: the registers
themselves in dense mode, and the conversion of the sparse list in
sparse mode. -/
def absRegs : HyperLogLogPlusMinus → List ℕ
  | ⟨_, M, false, _⟩ => M
  | ⟨p, _, true, sl⟩ => addToRegisters p (List.replicate (2 ^ p) 0) sl

theorem absRegs_of_dense (s : HyperLogLogPlusMinus) (hs : s.sparse = false) :
    absRegs s = s.M := by
  obtain ⟨p, M0, sp, sl0⟩ := s
  cases hs
  rfl

theorem absRegs_insertHash (s : HyperLogLogPlusMinus) (hp4 : 4 ≤ s.p)
    (hp25 : s.p ≤ 25) (h : ℕ) :
    absRegs (insertHash s h) =
      foldReg (absRegs s) (denseIndex s.p h) (denseRank s.p h) := by
  obtain ⟨p, M0, sp, sl0⟩ := s
  cases sp
  · rfl
  · rw [insertHash_sparse_eq _ rfl h]
    split_ifs with hT <;> exact convert_insert p hp4 hp25 sl0 _ h

theorem insertHash_dense_stays (s : HyperLogLogPlusMinus)
    (hs : s.sparse = false) (h : ℕ) : (insertHash s h).sparse = false := by
  rw [insertHash_dense_eq s hs h]
  exact hs

theorem foldl_add_dense_stays (mixer : ℕ → ℕ) (items : List ℕ) :
    ∀ s : HyperLogLogPlusMinus, s.sparse = false →
      (items.foldl (add mixer) s).sparse = false := by
  induction items with
  | nil => exact fun s hs => hs
  | cons x t ih =>
    intro s hs
    simp only [List.foldl_cons]
    exact ih _ (insertHash_dense_stays s hs _)

theorem absRegs_foldl_add (mixer : ℕ → ℕ) (items : List ℕ) :
    ∀ s : HyperLogLogPlusMinus, 4 ≤ s.p → s.p ≤ 25 →
      absRegs (items.foldl (add mixer) s) =
        items.foldl
          (fun A x => foldReg A (denseIndex s.p (mixer x % 2 ^ 64))
            (denseRank s.p (mixer x % 2 ^ 64))) (absRegs s) := by
  induction items with
  | nil => exact fun s _ _ => rfl
  | cons x t ih =>
    intro s hp4 hp25
    simp only [List.foldl_cons]
    rw [ih (add mixer s x) (by rw [add_p]; exact hp4)
      (by rw [add_p]; exact hp25)]
    simp only [add_p]
    rw [show add mixer s x = insertHash s (mixer x % 2 ^ 64) from rfl,
      absRegs_insertHash s hp4 hp25]

/-- C1: inserting any sequence of items into a sparse-started sketch
that ends up promoted to Dense produces exactly the register array of a
Dense-started sketch of the same precision after inserting the same
items. -/
theorem promotion_matches_dense (precision : ℕ) (mixer : ℕ → ℕ)
    (sS sD : HyperLogLogPlusMinus)
    (hS : construct precision true = Except.ok sS)
    (hD : construct precision false = Except.ok sD)
    (items : List ℕ)
    (hpromoted : (items.foldl (add mixer) sS).sparse = false) :
    (items.foldl (add mixer) sS).M = (items.foldl (add mixer) sD).M := by
  obtain ⟨hp4, hp25, hsS⟩ := construct_ok _ _ _ hS
  obtain ⟨_, _, hsD⟩ := construct_ok _ _ _ hD
  subst hsS
  subst hsD
  have hfinD : ((items.foldl (add mixer)
      ⟨precision, if false then [] else List.replicate (2 ^ precision) 0,
        false, []⟩ : HyperLogLogPlusMinus)).sparse = false :=
    foldl_add_dense_stays mixer items _ rfl
  rw [← absRegs_of_dense _ hpromoted, ← absRegs_of_dense _ hfinD,
    absRegs_foldl_add mixer items _ hp4 hp25,
    absRegs_foldl_add mixer items _ hp4 hp25]
  rfl

/-- Witness for C1: five items with distinct sparse buckets force
promotion at precision 4. -/
theorem promotion_matches_dense_witness :
    construct 4 true = Except.ok (HyperLogLogPlusMinus.mk 4 [] true [])
    ∧ construct 4 false =
      Except.ok (HyperLogLogPlusMinus.mk 4
        (if false then [] else List.replicate (2 ^ 4) 0) false [])
    ∧ ([2 ^ 39, 2 * 2 ^ 39, 3 * 2 ^ 39, 4 * 2 ^ 39, 5 * 2 ^ 39].foldl (add id)
        (HyperLogLogPlusMinus.mk 4 [] true [])).sparse = false
    ∧ ([2 ^ 39, 2 * 2 ^ 39, 3 * 2 ^ 39, 4 * 2 ^ 39, 5 * 2 ^ 39].foldl (add id)
        (HyperLogLogPlusMinus.mk 4 [] true [])).M
      = ([2 ^ 39, 2 * 2 ^ 39, 3 * 2 ^ 39, 4 * 2 ^ 39, 5 * 2 ^ 39].foldl (add id)
        (HyperLogLogPlusMinus.mk 4
          (if false then [] else List.replicate (2 ^ 4) 0) false [])).M :=
  ⟨rfl, rfl, by decide,
    promotion_matches_dense 4 id _ _ rfl rfl _ (by decide)⟩

/-! ### Register monotonicity -/

/-- Fold a whole list of `(bucket index, rank)` observations into a
register array. -/
def foldPairs (M : List ℕ) (L : List (ℕ × ℕ)) : List ℕ :=
  L.foldl (fun A e => foldReg A e.1 e.2) M

/-- The largest rank among the observations of `L` that address bucket
`i` (0 when none do). -/
def maxRankFolded (L : List (ℕ × ℕ)) (i : ℕ) : ℕ :=
  (L.filter (fun e => e.1 == i)).foldl (fun a e => max a e.2) 0

theorem getD_foldReg_ge (M : List ℕ) (i j r : ℕ) :
    M.getD j 0 ≤ (foldReg M i r).getD j 0 := by
  by_cases hij : i = j
  · subst hij
    by_cases hi : i < M.length
    · rw [foldReg, getD_set_self M i _ hi]
      exact le_max_left _ _
    · rw [foldReg, List.set_eq_of_length_le (by omega)]
  · rw [foldReg, getD_set_ne M i j _ hij]

theorem getD_zipWith_max_ge (A : List ℕ) :
    ∀ (B : List ℕ), B.length = A.length → ∀ i,
      A.getD i 0 ≤ (List.zipWith max A B).getD i 0 := by
  induction A with
  | nil =>
    intro B _ i
    simp
  | cons a t ih =>
    intro B hB i
    cases B with
    | nil => simp at hB
    | cons b u =>
      cases i with
      | zero => exact le_max_left a b
      | succ n =>
        simp only [List.zipWith_cons_cons, List.getD_cons_succ]
        exact ih u (by simpa using hB) n

theorem foldl_max_acc (l : List (ℕ × ℕ)) :
    ∀ a : ℕ, l.foldl (fun acc e => max acc e.2) a =
      max a (l.foldl (fun acc e => max acc e.2) 0) := by
  induction l with
  | nil =>
    intro a
    simp
  | cons e t ih =>
    intro a
    simp only [List.foldl_cons]
    rw [ih (max a e.2), ih (max 0 e.2), Nat.zero_max, max_assoc]

theorem set_getD_self (M : List ℕ) : ∀ i : ℕ, M.set i (M.getD i 0) = M := by
  induction M with
  | nil => intro i; rfl
  | cons a t ih =>
    intro i
    cases i with
    | zero => rfl
    | succ n =>
      simp only [List.set_cons_succ, List.getD_cons_succ]
      rw [ih n]

theorem foldPairs_getD (L : List (ℕ × ℕ)) :
    ∀ (M : List ℕ) (i : ℕ), i < M.length →
      (foldPairs M L).getD i 0 = max (M.getD i 0) (maxRankFolded L i) := by
  induction L with
  | nil =>
    intro M i _
    simp [foldPairs, maxRankFolded]
  | cons e t ih =>
    intro M i hi
    obtain ⟨j, r⟩ := e
    have hstep : foldPairs M ((j, r) :: t) = foldPairs (foldReg M j r) t := rfl
    rw [hstep, ih (foldReg M j r) i (by rw [foldReg_length]; exact hi)]
    by_cases hij : j = i
    · subst hij
      have h1 : (foldReg M j r).getD j 0 = max (M.getD j 0) r := by
        rw [foldReg, getD_set_self M j _ hi]
      have h2 : maxRankFolded ((j, r) :: t) j = max r (maxRankFolded t j) := by
        rw [maxRankFolded, List.filter_cons_of_pos (by simp)]
        simp only [List.foldl_cons]
        rw [foldl_max_acc, Nat.zero_max]
        rfl
      rw [h1, h2, max_assoc]
    · have h1 : (foldReg M j r).getD i 0 = M.getD i 0 := by
        rw [foldReg, getD_set_ne M j i _ hij]
      have h2 : maxRankFolded ((j, r) :: t) i = maxRankFolded t i := by
        rw [maxRankFolded, List.filter_cons_of_neg (by simp [hij])]
        rfl
      rw [h1, h2]

theorem addToRegisters_length (p : ℕ) (sl : SparseListType) :
    ∀ M : List ℕ, (addToRegisters p M sl).length = M.length := by
  induction sl with
  | nil => exact fun M => rfl
  | cons e t ih =>
    intro M
    rw [addToRegisters_cons, ih, foldReg_length]

/-- C2: dense registers never decrease — neither under `add` of any item
nor under merge with any well-formed same-precision sketch, sparse or
dense; folding a rank not above the stored value is a no-op; and after
folding any sequence of `(bucket, rank)` observations a register holds
the maximum rank ever folded into it. -/
theorem registers_monotone_and_max (s other : HyperLogLogPlusMinus)
    (h i r : ℕ) (M : List ℕ) (L : List (ℕ × ℕ))
    (hs : s.sparse = false) (hws : WF s) (hwt : WF other)
    (hpq : s.p = other.p) (hiM : i < M.length) :
    s.M.getD i 0 ≤ (insertHash s h).M.getD i 0
    ∧ s.M.getD i 0 ≤ (mergeStates s other).M.getD i 0
    ∧ (r ≤ M.getD i 0 → foldReg M i r = M)
    ∧ (foldPairs M L).getD i 0 = max (M.getD i 0) (maxRankFolded L i) := by
  refine ⟨?_, ?_, ?_, ?_⟩
  · rw [insertHash_dense_eq s hs h]
    exact getD_foldReg_ge s.M _ i _
  · have hws' : s.M.length = 2 ^ s.p ∧ s.sparseList = [] := by
      rw [WF, hs] at hws
      simpa using hws
    have hbM : (if other.sparse then switchToNormalRepresentation other
        else other).M.length = s.M.length := by
      by_cases hot : other.sparse = true
      · rw [if_pos hot]
        show (addToRegisters other.p (List.replicate (2 ^ other.p) 0)
          other.sparseList).length = s.M.length
        rw [addToRegisters_length, List.length_replicate, hws'.1, hpq]
      · have hot' : other.sparse = false := by
          revert hot
          cases other.sparse <;> simp
        rw [if_neg hot]
        have hwt' : other.M.length = 2 ^ other.p ∧ other.sparseList = [] := by
          rw [WF, hot'] at hwt
          simpa using hwt
        rw [hwt'.1, hws'.1, hpq]
    have hms : mergeStates s other =
        { s with
          M := List.zipWith max s.M
                 (if other.sparse then switchToNormalRepresentation other
                  else other).M } := by
      rw [mergeStates, if_neg (by simp [hs])]
      simp [hs]
    rw [hms]
    exact getD_zipWith_max_ge s.M _ hbM i
  · intro hr
    rw [foldReg, max_eq_left hr, set_getD_self]
  · exact foldPairs_getD L M i hiM

/-- Witness for C2 at precision 4: a fresh dense receiver, merged with a
same-precision sparse sketch holding one entry, plus bucket 0, the fold
list `[(0, 3), (0, 2)]` and rank 1. -/
theorem registers_monotone_and_max_witness :
    (HyperLogLogPlusMinus.mk 4 (List.replicate 16 0) false []).sparse = false
    ∧ WF (HyperLogLogPlusMinus.mk 4 (List.replicate 16 0) false [])
    ∧ WF (HyperLogLogPlusMinus.mk 4 [] true [(1, 40)])
    ∧ (HyperLogLogPlusMinus.mk 4 (List.replicate 16 0) false []).p =
      (HyperLogLogPlusMinus.mk 4 [] true [(1, 40)]).p
    ∧ 0 < [4, 2].length
    ∧ ((HyperLogLogPlusMinus.mk 4 (List.replicate 16 0) false []).M.getD 0 0 ≤
        (insertHash (HyperLogLogPlusMinus.mk 4 (List.replicate 16 0) false []) 7).M.getD 0 0
      ∧ (HyperLogLogPlusMinus.mk 4 (List.replicate 16 0) false []).M.getD 0 0 ≤
        (mergeStates (HyperLogLogPlusMinus.mk 4 (List.replicate 16 0) false [])
          (HyperLogLogPlusMinus.mk 4 [] true [(1, 40)])).M.getD 0 0
      ∧ (1 ≤ [4, 2].getD 0 0 → foldReg [4, 2] 0 1 = [4, 2])
      ∧ (foldPairs [4, 2] [(0, 3), (0, 2)]).getD 0 0 =
        max ([4, 2].getD 0 0) (maxRankFolded [(0, 3), (0, 2)] 0)) :=
  ⟨rfl, by decide, by decide, rfl, by decide,
    registers_monotone_and_max
      (HyperLogLogPlusMinus.mk 4 (List.replicate 16 0) false [])
      (HyperLogLogPlusMinus.mk 4 [] true [(1, 40)])
      7 0 1 [4, 2] [(0, 3), (0, 2)] rfl (by decide) (by decide) rfl
      (by decide)⟩

/-! ### Lookup view of the sparse accumulator -/

/-- Rank stored for a sparse index, if any. -/
def lookupIdx : SparseListType → ℕ → Option ℕ
  | [], _ => none
  | (j, s) :: rest, i => if i = j then some s else lookupIdx rest i

/-- Merge of two optional ranks, keeping the maximum. -/
def optMax : Option ℕ → Option ℕ → Option ℕ
  | none, b => b
  | some a, none => some a
  | some a, some b => some (max a b)

/-- Combined rank contributed to index `i` by a list of observations. -/
def aggLookup : SparseListType → ℕ → Option ℕ
  | [], _ => none
  | (j, r) :: t, i => if i = j then optMax (some r) (aggLookup t i) else aggLookup t i

theorem optMax_none_right (a : Option ℕ) : optMax a none = a := by
  cases a <;> rfl

theorem optMax_comm (a b : Option ℕ) : optMax a b = optMax b a := by
  cases a <;> cases b <;> simp [optMax, max_comm]

theorem optMax_assoc (a b c : Option ℕ) :
    optMax (optMax a b) c = optMax a (optMax b c) := by
  cases a <;> cases b <;> cases c <;> simp [optMax, max_assoc]

theorem lookupIdx_none (l : SparseListType) (i : ℕ)
    (h : ∀ e ∈ l, e.1 ≠ i) : lookupIdx l i = none := by
  induction l with
  | nil => rfl
  | cons e t ih =>
    obtain ⟨j, s⟩ := e
    have hj : j ≠ i := h (j, s) (List.mem_cons_self _ _)
    simp only [lookupIdx, if_neg (Ne.symm hj)]
    exact ih fun e he => h e (List.mem_cons_of_mem _ he)

theorem aggLookup_none (l : SparseListType) (i : ℕ)
    (h : ∀ e ∈ l, e.1 ≠ i) : aggLookup l i = none := by
  induction l with
  | nil => rfl
  | cons e t ih =>
    obtain ⟨j, s⟩ := e
    have hj : j ≠ i := h (j, s) (List.mem_cons_self _ _)
    simp only [aggLookup, if_neg (Ne.symm hj)]
    exact ih fun e he => h e (List.mem_cons_of_mem _ he)

theorem lookupIdx_sparseInsert (l : SparseListType)
    (hl : l.Pairwise (fun a b => a.1 < b.1)) (i r j : ℕ) :
    lookupIdx (sparseInsert l i r) j =
      if j = i then optMax (lookupIdx l i) (some r) else lookupIdx l j := by
  induction l with
  | nil => rfl
  | cons e rest ih =>
    obtain ⟨k, u⟩ := e
    rw [List.pairwise_cons] at hl
    obtain ⟨hhead, htail⟩ := hl
    rcases lt_trichotomy i k with h1 | h1 | h1
    · rw [sparseInsert_cons_lt h1]
      have hnone : lookupIdx rest i = none :=
        lookupIdx_none _ _ fun e he => by have := hhead e he; omega
      simp only [lookupIdx, if_neg (show ¬ i = k by omega), hnone]
      by_cases hji : j = i
      · simp only [hji, eq_self_iff_true, if_true]
        rfl
      · simp only [if_neg hji]
    · subst h1
      rw [sparseInsert_cons_eq]
      simp only [lookupIdx]
      by_cases hji : j = i
      · simp only [hji, eq_self_iff_true, if_true]
        rfl
      · simp only [if_neg hji]
    · rw [sparseInsert_cons_gt h1]
      simp only [lookupIdx, ih htail]
      by_cases hjk : j = k
      · simp only [hjk, eq_self_iff_true, if_true,
          if_neg (show ¬ k = i by omega)]
      · simp only [if_neg hjk]
        by_cases hji : j = i
        · simp only [hji, eq_self_iff_true, if_true,
            if_neg (show ¬ i = k by omega)]
        · simp only [if_neg hji]

theorem lookupIdx_ext (l1 : SparseListType) :
    ∀ l2 : SparseListType, l1.Pairwise (fun a b => a.1 < b.1) →
      l2.Pairwise (fun a b => a.1 < b.1) →
      (∀ j, lookupIdx l1 j = lookupIdx l2 j) → l1 = l2 := by
  induction l1 with
  | nil =>
    intro l2 _ _ hl
    cases l2 with
    | nil => rfl
    | cons e t =>
      obtain ⟨k, u⟩ := e
      have := hl k
      simp [lookupIdx] at this
  | cons e t1 ih =>
    intro l2 hp1 hp2 hl
    obtain ⟨j, s⟩ := e
    cases l2 with
    | nil =>
      have := hl j
      simp [lookupIdx] at this
    | cons f t2 =>
      obtain ⟨k, u⟩ := f
      rw [List.pairwise_cons] at hp1 hp2
      obtain ⟨hh1, ht1⟩ := hp1
      obtain ⟨hh2, ht2⟩ := hp2
      have hjk : j = k := by
        rcases lt_trichotomy j k with h | h | h
        · exfalso
          have hj := hl j
          rw [show lookupIdx ((j, s) :: t1) j = some s from by
              simp [lookupIdx]] at hj
          rw [show lookupIdx ((k, u) :: t2) j = none from by
              simp only [lookupIdx, if_neg (by omega : ¬ j = k)]
              exact lookupIdx_none _ _ fun e he => by
                have := hh2 e he; omega] at hj
          exact Option.noConfusion hj
        · exact h
        · exfalso
          have hk := hl k
          rw [show lookupIdx ((j, s) :: t1) k = none from by
              simp only [lookupIdx, if_neg (by omega : ¬ k = j)]
              exact lookupIdx_none _ _ fun e he => by
                have := hh1 e he; omega] at hk
          rw [show lookupIdx ((k, u) :: t2) k = some u from by
              simp [lookupIdx]] at hk
          exact Option.noConfusion hk
      subst hjk
      have hsu : s = u := by
        have := hl j
        simp only [lookupIdx, if_pos rfl] at this
        exact Option.some.inj this
      subst hsu
      have htails : ∀ m, lookupIdx t1 m = lookupIdx t2 m := by
        intro m
        by_cases hmj : m = j
        · subst hmj
          rw [lookupIdx_none t1 m fun e he => by have := hh1 e he; omega,
            lookupIdx_none t2 m fun e he => by have := hh2 e he; omega]
        · have := hl m
          simpa only [lookupIdx, if_neg hmj] using this
      rw [ih t2 ht1 ht2 htails]

theorem aggLookup_eq_lookupIdx (l : SparseListType)
    (hl : l.Pairwise (fun a b => a.1 < b.1)) (j : ℕ) :
    aggLookup l j = lookupIdx l j := by
  induction l with
  | nil => rfl
  | cons e t ih =>
    obtain ⟨k, u⟩ := e
    rw [List.pairwise_cons] at hl
    obtain ⟨hhead, htail⟩ := hl
    by_cases hjk : j = k
    · subst hjk
      simp only [aggLookup, lookupIdx, if_pos rfl]
      rw [aggLookup_none t j fun e he => by have := hhead e he; omega]
      rfl
    · simp only [aggLookup, lookupIdx, if_neg hjk]
      exact ih htail

theorem foldl_insert_pairwise (ys : SparseListType) :
    ∀ xs : SparseListType, xs.Pairwise (fun a b => a.1 < b.1) →
      (ys.foldl (fun a e => sparseInsert a e.1 e.2) xs).Pairwise
        (fun a b => a.1 < b.1) := by
  induction ys with
  | nil => exact fun xs hxs => hxs
  | cons e t ih =>
    intro xs hxs
    simp only [List.foldl_cons]
    exact ih _ (sparseInsert_pairwise xs e.1 e.2 hxs)

theorem lookup_foldl_insert (ys : SparseListType) :
    ∀ xs : SparseListType, xs.Pairwise (fun a b => a.1 < b.1) → ∀ j,
      lookupIdx (ys.foldl (fun a e => sparseInsert a e.1 e.2) xs) j =
        optMax (lookupIdx xs j) (aggLookup ys j) := by
  induction ys with
  | nil =>
    intro xs _ j
    exact (optMax_none_right _).symm
  | cons e t ih =>
    intro xs hxs j
    obtain ⟨i, r⟩ := e
    simp only [List.foldl_cons]
    rw [ih (sparseInsert xs i r) (sparseInsert_pairwise xs i r hxs) j,
      lookupIdx_sparseInsert xs hxs i r j]
    simp only [aggLookup]
    by_cases hji : j = i
    · simp only [hji, eq_self_iff_true, if_true]
      rw [optMax_assoc]
    · simp only [if_neg hji]

theorem mergeSparse_comm (xs ys : SparseListType)
    (hx : xs.Pairwise (fun a b => a.1 < b.1))
    (hy : ys.Pairwise (fun a b => a.1 < b.1)) :
    ys.foldl (fun a e => sparseInsert a e.1 e.2) xs =
      xs.foldl (fun a e => sparseInsert a e.1 e.2) ys := by
  refine lookupIdx_ext _ _ (foldl_insert_pairwise ys xs hx)
    (foldl_insert_pairwise xs ys hy) fun j => ?_
  rw [lookup_foldl_insert ys xs hx j, lookup_foldl_insert xs ys hy j,
    aggLookup_eq_lookupIdx ys hy j, aggLookup_eq_lookupIdx xs hx j,
    optMax_comm]

/-- C7: for two well-formed sketches of the same precision, merging in
either order produces element-wise equal register arrays. -/
theorem merge_registers_comm (s t : HyperLogLogPlusMinus)
    (hws : WF s) (hwt : WF t) (hp : s.p = t.p) :
    (mergeStates s t).M = (mergeStates t s).M := by
  obtain ⟨ps, Ms, sps, sls⟩ := s
  obtain ⟨pt, Mt, spt, slt⟩ := t
  have hp' : ps = pt := hp
  subst hp'
  cases sps <;> cases spt
  · show List.zipWith max Ms Mt = List.zipWith max Mt Ms
    exact List.zipWith_comm_of_comm max max_comm Ms Mt
  · show List.zipWith max Ms (addToRegisters ps (List.replicate (2 ^ ps) 0) slt)
      = List.zipWith max (addToRegisters ps (List.replicate (2 ^ ps) 0) slt) Ms
    exact List.zipWith_comm_of_comm max max_comm _ _
  · show List.zipWith max (addToRegisters ps (List.replicate (2 ^ ps) 0) sls) Mt
      = List.zipWith max Mt (addToRegisters ps (List.replicate (2 ^ ps) 0) sls)
    exact List.zipWith_comm_of_comm max max_comm _ _
  · obtain ⟨hMs, hsls⟩ := hws
    obtain ⟨hMt, hslt⟩ := hwt
    subst hMs
    subst hMt
    show (if 2 ^ ps <
          4 * (List.foldl (fun a e => sparseInsert a e.1 e.2) sls slt).length then
        HyperLogLogPlusMinus.mk ps
          (addToRegisters ps (List.replicate (2 ^ ps) 0)
            (List.foldl (fun a e => sparseInsert a e.1 e.2) sls slt)) false []
      else HyperLogLogPlusMinus.mk ps [] true
        (List.foldl (fun a e => sparseInsert a e.1 e.2) sls slt)).M
      = (if 2 ^ ps <
          4 * (List.foldl (fun a e => sparseInsert a e.1 e.2) slt sls).length then
        HyperLogLogPlusMinus.mk ps
          (addToRegisters ps (List.replicate (2 ^ ps) 0)
            (List.foldl (fun a e => sparseInsert a e.1 e.2) slt sls)) false []
      else HyperLogLogPlusMinus.mk ps [] true
        (List.foldl (fun a e => sparseInsert a e.1 e.2) slt sls)).M
    rw [mergeSparse_comm sls slt hsls hslt]

/-- Witness for C7: a sparse sketch holding one entry merged with a
fresh dense sketch at precision 4, in both orders. -/
theorem merge_registers_comm_witness :
    WF (HyperLogLogPlusMinus.mk 4 [] true [(1, 40)])
    ∧ WF (HyperLogLogPlusMinus.mk 4 (List.replicate 16 0) false [])
    ∧ (HyperLogLogPlusMinus.mk 4 [] true [(1, 40)]).p =
      (HyperLogLogPlusMinus.mk 4 (List.replicate 16 0) false []).p
    ∧ (mergeStates (HyperLogLogPlusMinus.mk 4 [] true [(1, 40)])
        (HyperLogLogPlusMinus.mk 4 (List.replicate 16 0) false [])).M
      = (mergeStates (HyperLogLogPlusMinus.mk 4 (List.replicate 16 0) false [])
        (HyperLogLogPlusMinus.mk 4 [] true [(1, 40)])).M :=
  ⟨by decide, by decide, rfl,
    merge_registers_comm _ _ (by decide) (by decide) rfl⟩

/-! ### The two cardinality estimators

The estimator bodies are not in the source tree either; they are
modelled from the specification over the real numbers (the C++ code
computes them in `double`). -/

/-- Modelled from the spec: the precision-dependent bias constant of the
harmonic-mean estimate, the standard closed form per `m` (missing: body
of `heuleCardinality`). -/
noncomputable def alphaM (m : ℕ) : ℝ :=
  if m = 16 then 0.673
  else if m = 32 then 0.697
  else if m = 64 then 0.709
  else 0.7213 / (1 + 1.079 / m)

/-- Modelled from the spec: linear counting over `m` buckets of which
`z` are empty (missing: bodies of the estimators). -/
noncomputable def linearCounting (m z : ℕ) : ℝ := m * Real.log ((m : ℝ) / z)

/-- Modelled from the spec: the raw harmonic-mean estimate
`α_m · m² / Σ 2^(−registers\x7bi\x7d)` (missing: body of
`heuleCardinality`). -/
noncomputable def rawEstimate (m : ℕ) (M : List ℕ) : ℝ :=
  alphaM m * (m : ℝ) ^ 2 / (M.map fun r => ((2 : ℝ))⁻¹ ^ r).sum

/-- Modelled from the spec: the bias-corrected estimate of Heule et al.;
sparse mode uses linear counting over `mPrime` buckets with the sparse
set size as occupancy; in dense mode a zero register together with a raw
estimate at most `2.5 m` falls back to linear counting, a raw estimate
at most `5 m` is bias-corrected through the injected empirical table
`bias`, and larger estimates are returned raw (missing: body of
`heuleCardinality`). -/
noncomputable def heuleEstimate (bias : ℕ → ℝ → ℝ)
    (s : HyperLogLogPlusMinus) : ℝ :=
  if s.sparse then linearCounting mPrime (mPrime - s.sparseList.length)
  else
    if s.M.count 0 ≠ 0 ∧
        rawEstimate (2 ^ s.p) s.M ≤ 5 / 2 * ((2 ^ s.p : ℕ) : ℝ) then
      linearCounting (2 ^ s.p) (s.M.count 0)
    else if rawEstimate (2 ^ s.p) s.M ≤ 5 * ((2 ^ s.p : ℕ) : ℝ) then
      rawEstimate (2 ^ s.p) s.M - bias s.p (rawEstimate (2 ^ s.p) s.M)
    else rawEstimate (2 ^ s.p) s.M

/-- Modelled from the spec: `heuleCardinality` returns the rounded
non-negative estimate. -/
noncomputable def heuleCardinality (bias : ℕ → ℝ → ℝ)
    (s : HyperLogLogPlusMinus) : ℤ :=
  round (heuleEstimate bias s)

/-- `cardinality()` returns `heuleCardinality()` (header comment at
`hyperloglogplus.h:102`). -/
noncomputable def cardinality (bias : ℕ → ℝ → ℝ)
    (s : HyperLogLogPlusMinus) : ℤ :=
  heuleCardinality bias s

/-- Histogram of register values: how many registers hold value `k`. -/
def registerHistogram (M : List ℕ) (k : ℕ) : ℕ := M.count k

/-- Modelled from the spec: the sigma series of Ertl's estimator, the
low-rank tail correction, as its limit (missing: body of
`ertlCardinality`). -/
noncomputable def sigmaFn (x : ℝ) : ℝ :=
  x + tsum (fun k : ℕ => x ^ (2 ^ (k + 1)) * (2 : ℝ) ^ k)

/-- Modelled from the spec: the tau series of Ertl's estimator, the
high-rank tail correction, as its limit (missing: body of
`ertlCardinality`). -/
noncomputable def tauFn (x : ℝ) : ℝ :=
  (1 - x - tsum (fun k : ℕ =>
    (1 - x ^ ((2 : ℝ)⁻¹ ^ (k + 1))) ^ 2 * (2 : ℝ)⁻¹ ^ (k + 1))) / 3

/-- Modelled from the spec: Ertl's table-free estimator: in sparse mode
linear counting over the sparse representation; in dense mode the
degenerate all-zero register array yields estimate 0, and otherwise the
register histogram is combined with the tau and sigma corrections into
the closed-form estimate (missing: body of `ertlCardinality`). -/
noncomputable def ertlEstimate (s : HyperLogLogPlusMinus) : ℝ :=
  if s.sparse then linearCounting mPrime (mPrime - s.sparseList.length)
  else if s.M.count 0 = s.M.length then 0
  else
    ((2 ^ s.p : ℝ)) ^ 2 / (2 * Real.log 2) /
      ((2 ^ s.p : ℝ) *
          tauFn (1 - (registerHistogram s.M (64 - s.p + 1) : ℝ) / (2 ^ s.p : ℝ)) *
          (2 : ℝ)⁻¹ ^ (64 - s.p)
        + (Finset.range (64 - s.p)).sum
            (fun k => (registerHistogram s.M (k + 1) : ℝ) * (2 : ℝ)⁻¹ ^ (k + 1))
        + (2 ^ s.p : ℝ) * sigmaFn ((registerHistogram s.M 0 : ℝ) / (2 ^ s.p : ℝ)))

/-- Modelled from the spec: `ertlCardinality` returns the rounded
estimate. -/
noncomputable def ertlCardinality (s : HyperLogLogPlusMinus) : ℤ :=
  round (ertlEstimate s)

theorem alphaM_le (m : ℕ) : alphaM m ≤ 5 / 2 := by
  rw [alphaM]
  split_ifs
  · norm_num
  · norm_num
  · norm_num
  · have h1 : (1 : ℝ) ≤ 1 + 1.079 / m :=
      le_add_of_nonneg_right (by positivity)
    exact le_trans (div_le_self (by norm_num) h1) (by norm_num)

theorem linearCounting_full (m : ℕ) (hm : m ≠ 0) : linearCounting m m = 0 := by
  rw [linearCounting, div_self (by exact_mod_cast hm), Real.log_one, mul_zero]

theorem rawEstimate_all_zero (p : ℕ) :
    rawEstimate (2 ^ p) (List.replicate (2 ^ p) 0) =
      alphaM (2 ^ p) * ((2 ^ p : ℕ) : ℝ) := by
  have hsum : ((List.replicate (2 ^ p) (0 : ℕ)).map
      fun r => ((2 : ℝ))⁻¹ ^ r).sum = ((2 ^ p : ℕ) : ℝ) := by
    rw [List.map_replicate]
    simp [List.sum_replicate]
  rw [rawEstimate, hsum, div_eq_iff (by positivity)]
  ring

theorem heuleEstimate_empty_dense (bias : ℕ → ℝ → ℝ) (p : ℕ) :
    heuleEstimate bias
      (HyperLogLogPlusMinus.mk p (List.replicate (2 ^ p) 0) false []) = 0 := by
  have hm : (2 : ℕ) ^ p ≠ 0 := by positivity
  have hcount : (List.replicate (2 ^ p) (0 : ℕ)).count 0 = 2 ^ p := by
    simp [List.count_replicate]
  show (if (List.replicate (2 ^ p) (0 : ℕ)).count 0 ≠ 0 ∧
      rawEstimate (2 ^ p) (List.replicate (2 ^ p) 0) ≤
        5 / 2 * ((2 ^ p : ℕ) : ℝ) then
      linearCounting (2 ^ p) ((List.replicate (2 ^ p) (0 : ℕ)).count 0)
    else if rawEstimate (2 ^ p) (List.replicate (2 ^ p) 0) ≤
        5 * ((2 ^ p : ℕ) : ℝ) then
      rawEstimate (2 ^ p) (List.replicate (2 ^ p) 0) -
        bias p (rawEstimate (2 ^ p) (List.replicate (2 ^ p) 0))
    else rawEstimate (2 ^ p) (List.replicate (2 ^ p) 0)) = 0
  rw [if_pos ⟨by rw [hcount]; exact hm, by
    rw [rawEstimate_all_zero p]
    have h1 := alphaM_le (2 ^ p)
    have h2 : (0 : ℝ) ≤ ((2 ^ p : ℕ) : ℝ) := by positivity
    nlinarith⟩]
  rw [hcount]
  exact linearCounting_full _ hm

theorem ertlEstimate_empty_dense (p : ℕ) :
    ertlEstimate
      (HyperLogLogPlusMinus.mk p (List.replicate (2 ^ p) 0) false []) = 0 := by
  have hcl : (List.replicate (2 ^ p) (0 : ℕ)).count 0 =
      (List.replicate (2 ^ p) (0 : ℕ)).length := by
    simp [List.count_replicate]
  exact if_pos hcl

/-- C5: both estimators return 0 on a freshly constructed sketch, at
every valid precision and in either starting representation. -/
theorem empty_sketch_estimators_zero (precision : ℕ) (b : Bool)
    (bias : ℕ → ℝ → ℝ) (s0 : HyperLogLogPlusMinus)
    (hc : construct precision b = Except.ok s0) :
    heuleCardinality bias s0 = 0 ∧ ertlCardinality s0 = 0 := by
  obtain ⟨hp4, hp25, hs0⟩ := construct_ok _ _ _ hc
  have hmp : mPrime ≠ 0 := by
    rw [mPrime]
    positivity
  cases b
  · have hs0' : s0 = HyperLogLogPlusMinus.mk precision
        (List.replicate (2 ^ precision) 0) false [] := hs0
    subst hs0'
    constructor
    · simp only [heuleCardinality]
      rw [heuleEstimate_empty_dense]
      exact round_zero
    · simp only [ertlCardinality]
      rw [ertlEstimate_empty_dense]
      exact round_zero
  · have hs0' : s0 = HyperLogLogPlusMinus.mk precision [] true [] := hs0
    subst hs0'
    constructor
    · simp only [heuleCardinality]
      rw [show heuleEstimate bias (HyperLogLogPlusMinus.mk precision [] true [])
          = linearCounting mPrime mPrime from rfl, linearCounting_full _ hmp]
      exact round_zero
    · simp only [ertlCardinality]
      rw [show ertlEstimate (HyperLogLogPlusMinus.mk precision [] true [])
          = linearCounting mPrime mPrime from rfl, linearCounting_full _ hmp]
      exact round_zero

/-- Witness for C5: a fresh sparse sketch at precision 12, with the zero
bias table. -/
theorem empty_sketch_estimators_zero_witness :
    construct 12 true =
      Except.ok (HyperLogLogPlusMinus.mk 12 [] true [])
    ∧ (heuleCardinality (fun _ _ => 0) (HyperLogLogPlusMinus.mk 12 [] true []) = 0
      ∧ ertlCardinality (HyperLogLogPlusMinus.mk 12 [] true []) = 0) :=
  ⟨rfl, empty_sketch_estimators_zero 12 true (fun _ _ => 0) _ rfl⟩

/-! ### Observable behaviour of the estimator calls -/

/-- Modelled from the spec: the observable effect of the const member
`cardinality()`: the returned estimate paired with the sketch state
after the call, which the `const` qualifier in the header keeps
unchanged. -/
noncomputable def cardinalityRun (bias : ℕ → ℝ → ℝ)
    (s : HyperLogLogPlusMinus) : ℤ × HyperLogLogPlusMinus :=
  (cardinality bias s, s)

/-- Modelled from the spec: the observable effect of the const member
`heuleCardinality()`. -/
noncomputable def heuleCardinalityRun (bias : ℕ → ℝ → ℝ)
    (s : HyperLogLogPlusMinus) : ℤ × HyperLogLogPlusMinus :=
  (heuleCardinality bias s, s)

/-- Modelled from the spec: the observable effect of the const member
`ertlCardinality()`. -/
noncomputable def ertlCardinalityRun (s : HyperLogLogPlusMinus) :
    ℤ × HyperLogLogPlusMinus :=
  (ertlCardinality s, s)

/-- C10: the estimator calls are deterministic and side-effect free:
they leave the sketch unchanged, repeated invocations return equal
values, and `cardinality()` returns exactly `heuleCardinality()`. -/
theorem estimators_pure_deterministic (bias : ℕ → ℝ → ℝ)
    (s : HyperLogLogPlusMinus) :
    (cardinalityRun bias s).1 = (heuleCardinalityRun bias s).1
    ∧ (cardinalityRun bias s).2 = s
    ∧ (heuleCardinalityRun bias s).2 = s
    ∧ (ertlCardinalityRun s).2 = s
    ∧ (heuleCardinalityRun bias ((heuleCardinalityRun bias s).2)).1 =
      (heuleCardinalityRun bias s).1
    ∧ (ertlCardinalityRun ((ertlCardinalityRun s).2)).1 =
      (ertlCardinalityRun s).1 :=
  ⟨rfl, rfl, rfl, rfl, rfl, rfl⟩

end HLLPM
